import Mathlib

/-!
Shallow embedding of the OCR layout-reconstruction engine
(`streamlit_ocr_engine.py`, class `StreamlitOCREngine`) and proofs of the
spec's claims about it.  Text is modelled as `List Char`; pixel coordinates
as `ℤ`; token confidences as `ℤ` (the engine stores Python ints) and merged
confidences as `ℚ` (the engine divides).  Scores are `ℚ` in place of Python
floats; the scoring expression is preserved verbatim.
-/

namespace OCREngine

/-- Python `str.strip()` — leading-whitespace removal half. -/
def stripLeft : List Char → List Char
  | [] => []
  | c :: cs => if c.isWhitespace then stripLeft cs else c :: cs

/-- Python `str.strip()`: drop leading and trailing whitespace. -/
def strip (s : List Char) : List Char :=
  ((stripLeft (stripLeft s).reverse)).reverse

/-- Walk for `collapseWS`; `prevWs` records whether the previous character
was whitespace (that run already emitted its single space). -/
def collapseGo (prevWs : Bool) : List Char → List Char
  | [] => []
  | c :: cs =>
    if c.isWhitespace then
      (if prevWs then [] else [' ']) ++ collapseGo true cs
    else c :: collapseGo false cs

/-- Model of `re.sub(r'\s+', ' ', s)`: collapse every maximal whitespace run to one
space. -/
def collapseWS (s : List Char) : List Char :=
  collapseGo false s

/-- Engine `gentle_text_cleaning` (lines 384–396): collapse whitespace on the
stripped text, then substitute `'|' → 'I'` (the source guards the replace with
a membership test, which is observationally the same map). -/
def gentle_text_cleaning (t : List Char) : List Char :=
  if t = [] then []
  else (collapseWS (strip t)).map (fun c => if c = '|' then 'I' else c)

/-- One raw OCR item as delivered by the recognition capability (one index of
the `image_to_data` dictionary): text, reported confidence (−1 = unmeasured),
and pixel bounding box. -/
structure RawItem where
  text : List Char
  conf : ℤ
  left : ℤ
  top : ℤ
  width : ℤ
  height : ℤ
deriving DecidableEq

/-- A surviving word token (engine lines 101–109): cleaned text, box,
confidence, and the precomputed `right` edge. -/
structure Word where
  text : List Char
  left : ℤ
  top : ℤ
  width : ℤ
  height : ℤ
  confidence : ℤ
  right : ℤ
deriving DecidableEq

instance : Inhabited Word :=
  ⟨{ text := [], left := 0, top := 0, width := 0, height := 0,
     confidence := 0, right := 0 }⟩

/-- The per-configuration token filter of `extract_text_with_word_level_data`
(engine lines 96–109): strip the raw text, normalize confidence (−1 ↦ 0),
keep the token iff the stripped text is non-empty (the source tests both
`text` truthiness and `len(text.strip()) >= 1`) and confidence is at least
the threshold; the kept token's text is the gently cleaned stripped text. -/
def surviving (thr : ℤ) (items : List RawItem) : List Word :=
  items.filterMap (fun it =>
    let t := strip it.text
    let c : ℤ := if it.conf = -1 then 0 else it.conf
    if t ≠ [] ∧ 1 ≤ (strip t).length ∧ thr ≤ c then
      some { text := gentle_text_cleaning t, left := it.left, top := it.top,
             width := it.width, height := it.height, confidence := c,
             right := it.left + it.width }
    else none)

/-- Engine `calculate_extraction_score` (lines 128–139), verbatim expression
`len*0.4 + avg_conf*0.3 + total_text_length*0.3`, over `ℚ`. -/
def calculate_extraction_score (ws : List Word) : ℚ :=
  if ws = [] then 0
  else
    let total_confidence : ℤ := (ws.map (·.confidence)).sum
    let avg_confidence : ℚ := (total_confidence : ℚ) / (ws.length : ℚ)
    let total_text_length : ℕ := (ws.map (fun w => w.text.length)).sum
    (ws.length : ℚ) * 0.4 + avg_confidence * 0.3 + (total_text_length : ℚ) * 0.3

/-- The selection score exactly as the spec words it:
`0.4·count + 0.3·mean(confidence) + 0.3·sum(len(text))`.  Stated separately
from `calculate_extraction_score` so the code's expression can be compared
against the spec's. -/
def specScore (ws : List Word) : ℚ :=
  0.4 * (ws.length : ℚ) +
    0.3 * ((((ws.map (·.confidence)).sum : ℤ) : ℚ) / (ws.length : ℚ)) +
    0.3 * (((ws.map (fun w => w.text.length)).sum : ℕ) : ℚ)

/-- One step of the best-configuration loop (engine lines 112–116): a
candidate replaces the running best iff it is non-empty and scores strictly
higher. -/
def stepBest (acc : List Word × ℚ) (words : List Word) : List Word × ℚ :=
  if words ≠ [] then
    let s := calculate_extraction_score words
    if acc.2 < s then (words, s) else acc
  else acc

/-- The configuration-selection fold (engine lines 82–122), starting from
`best_words = []`, `best_score = 0`. -/
def selectBest (cands : List (List Word)) : List Word × ℚ :=
  cands.foldl stepBest ([], 0)

/-- Engine `extract_text_with_word_level_data` (lines 69–126): filter each
configuration's raw OCR items, score, and keep the best-scoring non-empty
token list (empty when every configuration came up empty). -/
def extract_text_with_word_level_data (thr : ℤ)
    (results : List (List RawItem)) : List Word :=
  (selectBest (results.map (surviving thr))).1

/-- A merged text element (`merge_word_group` result, engine lines 234–241).
The source dict carries no `column_break` key until `detect_column_breaks`
adds one; reads use `.get('column_break', False)`, so the field defaults to
`false` here. -/
structure Run where
  text : List Char
  left : ℤ
  top : ℤ
  width : ℤ
  height : ℤ
  confidence : ℚ
  column_break : Bool := false
deriving DecidableEq

/-- Python `' '.join`. -/
def joinSpace : List (List Char) → List Char
  | [] => []
  | [t] => t
  | t :: ts => t ++ ' ' :: joinSpace ts

/-- Engine `merge_word_group` (lines 214–241): space-join the non-blank
member texts, return `none` when the combination is blank, else the union
bounding box and mean confidence. -/
def merge_word_group : List Word → Option Run
  | [] => none
  | w :: ws =>
    let combined := joinSpace (((w :: ws).map (·.text)).filter (fun t => strip t ≠ []))
    if strip combined = [] then none
    else
      let left := (ws.map (·.left)).foldl min w.left
      let top := (ws.map (·.top)).foldl min w.top
      let right := (ws.map (·.right)).foldl max w.right
      let bottom := (ws.map (fun x => x.top + x.height)).foldl max (w.top + w.height)
      let avg : ℚ := ((((w :: ws).map (·.confidence)).sum : ℤ) : ℚ) / (((w :: ws).length : ℕ) : ℚ)
      some { text := combined, left := left, top := top,
             width := right - left, height := bottom - top, confidence := avg }

/-- Python's stable sort of a row by the `left` key (engine line 181). -/
def sortLeft (row : List Word) : List Word :=
  row.mergeSort (fun a b => a.left ≤ b.left)

/-- The gap walk of `process_row_spacing` (engine lines 187–210): a word with
`left − previous.right ≤ θ` joins the open group, otherwise the open group is
closed and a new one starts. -/
def groupGaps (θ : ℤ) (prev : Word) (cur : List Word) : List Word → List (List Word)
  | [] => [cur]
  | w :: ws =>
    if w.left - prev.right ≤ θ then groupGaps θ w (cur ++ [w]) ws
    else cur :: groupGaps θ w [w] ws

/-- Engine `process_row_spacing` (lines 175–212): sort the row by `left`,
group by gaps, merge each group, dropping groups whose merge returns `none`. -/
def process_row_spacing (θ : ℤ) (row : List Word) : List Run :=
  match sortLeft row with
  | [] => []
  | w :: ws => (groupGaps θ w [w] ws).filterMap merge_word_group

/-- Python's stable sort of words by the `(top, left)` key (engine line 147). -/
def sortTopLeft (ws : List Word) : List Word :=
  ws.mergeSort (fun a b => a.top < b.top ∨ (a.top = b.top ∧ a.left ≤ b.left))

/-- The row-clustering walk of `group_words_by_spacing` (engine lines
154–165): `ref` is the fixed top of the first word of the open row
(`current_top` is never updated while the row stays open); a word joins iff
`|top − ref| ≤ θ`, else the open row closes and a new one opens at this
word. -/
def clusterAux (θ : ℤ) (ref : ℤ) (cur : List Word) : List Word → List (List Word)
  | [] => [cur]
  | w :: ws =>
    if |w.top - ref| ≤ θ then clusterAux θ ref (cur ++ [w]) ws
    else cur :: clusterAux θ w.top [w] ws

/-- Row clustering over a (sorted) word sequence. -/
def clusterRows (θ : ℤ) : List Word → List (List Word)
  | [] => []
  | w :: ws => clusterAux θ w.top [w] ws

/-- Engine `group_words_by_spacing` (lines 141–173): sort by `(top, left)`,
cluster into rows, process each row's spacing, and keep only rows whose
processing produced at least one element. -/
def group_words_by_spacing (θrow θword : ℤ) (words : List Word) : List (List Run) :=
  (clusterRows θrow (sortTopLeft words)).filterMap (fun r =>
    let p := process_row_spacing θword r
    if p = [] then none else some p)

/-- The per-row marking loop of `detect_column_breaks` (engine lines
258–271): each non-first group whose gap from the previous group is at least
`θ` gets its `column_break` flag set. -/
def markAux (θ : ℤ) (prev : Run) : List Run → List Run
  | [] => []
  | g :: gs =>
    let g' := if θ ≤ g.left - (prev.left + prev.width) then
                { g with column_break := true } else g
    g' :: markAux θ g' gs

/-- Engine `detect_column_breaks` restricted to one row (rows of length ≤ 1 pass through
untouched, engine lines 251–252). -/
def detect_column_breaks_row (θ : ℤ) (row : List Run) : List Run :=
  if row.length ≤ 1 then row
  else
    match row with
    | [] => []
    | g :: gs => g :: markAux θ g gs

/-- Engine `detect_column_breaks` (lines 243–275). -/
def detect_column_breaks (θ : ℤ) (rows : List (List Run)) : List (List Run) :=
  rows.map (detect_column_breaks_row θ)

/-- The running-counter loop of `calculate_smart_columns` (engine lines
325–333): the counter increments exactly on groups carrying the
`column_break` flag. -/
def colAux (cur : ℕ) : List Run → List ℕ
  | [] => []
  | g :: gs =>
    let c := if g.column_break then cur + 1 else cur
    c :: colAux c gs

/-- Engine `calculate_smart_columns` (lines 317–335): first group gets
column 1, later groups advance the counter on their break flag. -/
def calculate_smart_columns : List Run → List ℕ
  | [] => []
  | _ :: gs => 1 :: colAux 1 gs

/-- Column indices exactly as the spec words them: the counter increments
iff the gap `run.left − (previousRun.left + previousRun.width)` reaches the
column-break threshold.  Stated separately so the code's two-phase
flag-then-count pipeline can be compared against the spec's direct rule. -/
def specCols (θ : ℤ) (prevCol : ℕ) (prev : Run) : List Run → List ℕ
  | [] => []
  | g :: gs =>
    let c := if θ ≤ g.left - (prev.left + prev.width) then prevCol + 1 else prevCol
    c :: specCols θ c g gs

/-- Per-row column assignment as the spec words it: first run is column 1. -/
def specColumns (θ : ℤ) : List Run → List ℕ
  | [] => []
  | g :: gs => 1 :: specCols θ 1 g gs

/-- Cased-lowercase over the ASCII alphabet (model of Python casing). -/
def isCasedLower (c : Char) : Bool := 'a' ≤ c && c ≤ 'z'

/-- Cased-uppercase over the ASCII alphabet (model of Python casing). -/
def isCasedUpper (c : Char) : Bool := 'A' ≤ c && c ≤ 'Z'

/-- Python `str.isupper()` over the ASCII alphabet: no lowercase cased
character, and at least one cased (hence uppercase) character. -/
def pyIsUpper (s : List Char) : Bool :=
  s.all (fun c => !(isCasedLower c)) && s.any isCasedUpper

/-- Model of `text.startswith(('•', '-', '*', '○', '▪'))` (engine line 349). -/
def startsBullet : List Char → Bool
  | [] => false
  | c :: _ => c = '•' || c = '-' || c = '*' || c = '○' || c = '▪'

/-- Continuation of `^\d+\.`: zero or more further digits then a period. -/
def matchNumAux : List Char → Bool
  | [] => false
  | c :: cs => if c = '.' then true else c.isDigit && matchNumAux cs

/-- Model of `re.match(r'^\d+\.', text)` (engine line 353): one or more digits then a
period, anchored at the start. -/
def matchNumbered : List Char → Bool
  | [] => false
  | c :: cs => c.isDigit && matchNumAux cs

/-- The style a cell receives, one constructor per branch of
`format_cell_smart`. -/
inductive Style where
  | header
  | bullet
  | numbered
  | longBody
  | regular
deriving DecidableEq

/-- Engine `format_cell_smart`, its branch selection (lines 337–362): the
header branch tests only `text.isupper() and len(text) > 3` — the element's
confidence is never consulted. -/
def format_cell_smart (e : Run) : Style :=
  if pyIsUpper e.text ∧ 3 < e.text.length then .header
  else if startsBullet e.text then .bullet
  else if matchNumbered e.text then .numbered
  else if 50 < e.text.length then .longBody
  else .regular

/-- The lengths of the truthy (non-empty) cells of column `c` of a grid, in
row order (`adjust_column_widths_smart`'s dictionary of maxima, engine lines
368–377, walks exactly these cells). -/
def colContentLens (grid : List (List (Option (List Char)))) (c : ℕ) : List ℕ :=
  grid.filterMap (fun row =>
    match row.get? c with
    | some (some t) => if t = [] then none else some t.length
    | _ => none)

/-- Engine `adjust_column_widths_smart` (lines 364–382) for one column:
`none` when the column has no truthy cell (no width is set), else
`min(max(maxLen + 3, 15), 80)`. -/
def adjust_column_widths_smart (grid : List (List (Option (List Char))))
    (c : ℕ) : Option ℕ :=
  match colContentLens grid c with
  | [] => none
  | l :: ls => some (min (max ((ls.foldl max l) + 3) 15) 80)

/-- The merged element's bounding box covers the word's box. -/
def boxContains (r : Run) (w : Word) : Prop :=
  r.left ≤ w.left ∧ r.top ≤ w.top ∧
    w.left + w.width ≤ r.left + r.width ∧ w.top + w.height ≤ r.top + r.height

instance (r : Run) (w : Word) : Decidable (boxContains r w) := by
  unfold boxContains
  infer_instance

/-- Proper (strict) containment: the run's box covers the word's box and the
two boxes are not the same rectangle. -/
def boxStrictContains (r : Run) (w : Word) : Prop :=
  boxContains r w ∧
    ¬(r.left = w.left ∧ r.top = w.top ∧ r.width = w.width ∧ r.height = w.height)

instance (r : Run) (w : Word) : Decidable (boxStrictContains r w) := by
  unfold boxStrictContains
  infer_instance

/-- A concrete styled element: fully upper-case text of length 4, but
confidence 0. -/
def exRunC1 : Run :=
  { text := ['A', 'B', 'C', 'D'], left := 0, top := 0, width := 10,
    height := 10, confidence := 0 }

/-- A raw OCR item whose text is the single letter `A` at confidence 95. -/
def rawA : RawItem :=
  { text := ['A'], conf := 95, left := 0, top := 0, width := 5, height := 5 }

/-- The surviving token built from `rawA`. -/
def wA : Word :=
  { text := ['A'], left := 0, top := 0, width := 5, height := 5,
    confidence := 95, right := 5 }

/-- An all-garbage raw item: blank text, filtered out by every threshold. -/
def rawBlank : RawItem :=
  { text := [' ', ' '], conf := 40, left := 0, top := 0, width := 5, height := 5 }

/-- A single token for the C3 counterexample. -/
def tokC3 : Word :=
  { text := ['H', 'I'], left := 4, top := 5, width := 6, height := 7,
    confidence := 80, right := 10 }

/-- The TextRun `merge_word_group` produces from `[tokC3]`: the very same
bounding box. -/
def runC3 : Run :=
  { text := ['H', 'I'], left := 4, top := 5, width := 6, height := 7,
    confidence := 80 }

/-- First token of a two-token merge group. -/
def tokP : Word :=
  { text := ['A', 'B'], left := 0, top := 0, width := 4, height := 5,
    confidence := 90, right := 4 }

/-- Second token of a two-token merge group. -/
def tokQ : Word :=
  { text := ['C'], left := 10, top := 1, width := 4, height := 3,
    confidence := 80, right := 14 }

/-- The TextRun `merge_word_group` produces from `[tokP, tokQ]`. -/
def runPQ : Run :=
  { text := ['A', 'B', ' ', 'C'], left := 0, top := 0, width := 14,
    height := 5, confidence := 85 }

/-- A token on a clearly separate row (top 40). -/
def tokR : Word :=
  { text := ['D'], left := 2, top := 40, width := 4, height := 5,
    confidence := 70, right := 6 }

theorem stripLeft_all_ws {s : List Char} (h : (stripLeft s).all Char.isWhitespace) :
    s.all Char.isWhitespace := by
  induction s with
  | nil => simp
  | cons c cs ih =>
    by_cases hc : c.isWhitespace
    · simp only [stripLeft, hc, if_true] at h
      simp [hc, ih h]
    · simp only [stripLeft, hc, if_false] at h
      exact h

theorem strip_all_ws {s : List Char} (h : (strip s).all Char.isWhitespace) :
    s.all Char.isWhitespace := by
  unfold strip at h
  rw [List.all_reverse] at h
  have h1 := stripLeft_all_ws h
  rw [List.all_reverse] at h1
  exact stripLeft_all_ws h1

theorem strip_eq_nil_of_all_ws {s : List Char} (h : s.all Char.isWhitespace) :
    stripLeft s = [] := by
  induction s with
  | nil => rfl
  | cons c cs ih =>
    simp only [List.all_cons, Bool.and_eq_true] at h
    simp [stripLeft, h.1, ih h.2]

theorem strip_eq_nil_iff (s : List Char) :
    strip s = [] ↔ s.all Char.isWhitespace := by
  constructor
  · intro h
    have : (strip s).all Char.isWhitespace := by rw [h]; rfl
    exact strip_all_ws this
  · intro h
    unfold strip
    rw [strip_eq_nil_of_all_ws h]
    simp [stripLeft, strip_eq_nil_of_all_ws]

theorem collapseGo_all_ws {s : List Char} {b : Bool}
    (h : (collapseGo b s).all Char.isWhitespace) : s.all Char.isWhitespace := by
  induction s generalizing b with
  | nil => rfl
  | cons c cs ih =>
    by_cases hc : c.isWhitespace
    · rw [collapseGo, if_pos hc, List.all_append] at h
      rw [Bool.and_eq_true] at h
      simp [hc, ih h.2]
    · rw [collapseGo, if_neg hc] at h
      simp only [List.all_cons, Bool.and_eq_true] at h
      exact absurd h.1 hc

theorem gentle_text_cleaning_not_blank {t : List Char} (h : strip t ≠ []) :
    strip (gentle_text_cleaning t) ≠ [] := by
  have ht : t ≠ [] := by
    intro he
    exact h (by simp [he, strip, stripLeft])
  intro hcon
  rw [strip_eq_nil_iff] at hcon
  unfold gentle_text_cleaning at hcon
  rw [if_neg ht] at hcon
  have h1 : (collapseWS (strip t)).all Char.isWhitespace := by
    rw [List.all_eq_true] at hcon ⊢
    intro c hc
    have := hcon _ (List.mem_map_of_mem _ hc)
    by_cases hb : c = '|'
    · rw [hb, if_pos rfl] at this
      exact absurd this (by decide)
    · rwa [if_neg hb] at this
  have h2 := collapseGo_all_ws h1
  have h3 := strip_all_ws h2
  exact h ((strip_eq_nil_iff t).mpr h3)

section FoldBounds

variable {α : Type} [LinearOrder α]

theorem foldl_min_le_init (l : List α) (a : α) : l.foldl min a ≤ a := by
  induction l generalizing a with
  | nil => exact le_refl a
  | cons b bs ih => exact le_trans (ih (min a b)) (min_le_left a b)

theorem foldl_min_le_mem {x : α} {l : List α} (h : x ∈ l) (a : α) :
    l.foldl min a ≤ x := by
  induction l generalizing a with
  | nil => cases h
  | cons b bs ih =>
    rcases List.mem_cons.mp h with h1 | h1
    · subst h1
      exact le_trans (foldl_min_le_init bs (min a x)) (min_le_right a x)
    · exact ih h1 (min a b)

theorem le_foldl_max_init (l : List α) (a : α) : a ≤ l.foldl max a := by
  induction l generalizing a with
  | nil => exact le_refl a
  | cons b bs ih => exact le_trans (le_max_left a b) (ih (max a b))

theorem le_foldl_max_mem {x : α} {l : List α} (h : x ∈ l) (a : α) :
    x ≤ l.foldl max a := by
  induction l generalizing a with
  | nil => cases h
  | cons b bs ih =>
    rcases List.mem_cons.mp h with h1 | h1
    · subst h1
      exact le_trans (le_max_right a x) (le_foldl_max_init bs (max a x))
    · exact ih h1 (max a b)

theorem foldl_max_mem (l : List α) (a : α) :
    l.foldl max a = a ∨ l.foldl max a ∈ l := by
  induction l generalizing a with
  | nil => exact Or.inl rfl
  | cons b bs ih =>
    rcases ih (max a b) with h | h
    · rcases max_choice a b with hm | hm
      · exact Or.inl (by rw [List.foldl_cons, h, hm])
      · refine Or.inr ?_
        rw [List.foldl_cons, h, hm]
        exact List.mem_cons_self b bs
    · exact Or.inr (List.mem_cons_of_mem b h)

end FoldBounds

/-- C1 (counterexample): the claim requires Header styling only when
confidence > 70, but `format_cell_smart` styles this confidence-0 element as
Header — the source's header branch never reads the confidence. -/
theorem c1_counterexample :
    format_cell_smart exRunC1 = Style.header ∧ ¬ ((70 : ℚ) < exRunC1.confidence) := by
  constructor
  · rfl
  · rw [show exRunC1.confidence = 0 from rfl]
    norm_num

/-- C1 (amended): `format_cell_smart` applies the Header style if and only
if the element's text is fully upper-case and its length exceeds 3; the
element's confidence plays no role. -/
theorem c1_header_iff_upper_long (e : Run) :
    format_cell_smart e = Style.header ↔
      (pyIsUpper e.text = true ∧ 3 < e.text.length) := by
  unfold format_cell_smart
  by_cases h : pyIsUpper e.text = true ∧ 3 < e.text.length
  · simp [h]
  · rw [if_neg h]
    simp only [h, iff_false]
    split
    · simp
    · split
      · simp
      · split <;> simp

theorem mem_surviving {thr : ℤ} {items : List RawItem} {w : Word}
    (hw : w ∈ surviving thr items) :
    strip w.text ≠ [] ∧ thr ≤ w.confidence := by
  simp only [surviving, List.mem_filterMap] at hw
  obtain ⟨it, _, hf⟩ := hw
  split at hf <;> split at hf <;>
    first
    | (rename_i hcond
       rw [Option.some.injEq] at hf
       subst hf
       refine ⟨?_, hcond.2.2⟩
       apply gentle_text_cleaning_not_blank
       intro he
       rw [he] at hcond
       exact absurd hcond.2.1 (by simp))
    | cases hf

theorem stepBest_cases (acc : List Word × ℚ) (ws : List Word) :
    stepBest acc ws = acc ∨ ((stepBest acc ws).1 = ws ∧ ws ≠ []) := by
  unfold stepBest
  by_cases hne : ws = []
  · simp [hne]
  · rw [if_pos hne]
    by_cases hlt : acc.2 < calculate_extraction_score ws
    · exact Or.inr ⟨by rw [if_pos hlt], hne⟩
    · exact Or.inl (by rw [if_neg hlt])

theorem foldl_stepBest_mem (cands : List (List Word)) (acc : List Word × ℚ) :
    (cands.foldl stepBest acc).1 = acc.1 ∨ (cands.foldl stepBest acc).1 ∈ cands := by
  induction cands generalizing acc with
  | nil => exact Or.inl rfl
  | cons c cs ih =>
    rw [List.foldl_cons]
    rcases ih (stepBest acc c) with h | h
    · rcases stepBest_cases acc c with h2 | h2
      · exact Or.inl (by rw [h, h2])
      · exact Or.inr (by rw [h, h2.1]; exact List.mem_cons_self c cs)
    · exact Or.inr (List.mem_cons_of_mem c h)

/-- C2 (amended): every token returned by extraction has non-blank cleaned
text — trimmed length at least 1.  (The source filters on the raw trimmed
text being non-empty, not on cleaned length ≥ 2, and its cleaning has no
safelist strip; the counterexample shows a surviving length-1 token.) -/
theorem c2_tokens_nonblank (thr : ℤ) (results : List (List RawItem)) (w : Word)
    (hw : w ∈ extract_text_with_word_level_data thr results) :
    1 ≤ (strip w.text).length := by
  unfold extract_text_with_word_level_data selectBest at hw
  rcases foldl_stepBest_mem (results.map (surviving thr)) ([], 0) with h | h
  · rw [h] at hw
    cases hw
  · rw [List.mem_map] at h
    obtain ⟨r, _, hr⟩ := h
    rw [← hr] at hw
    exact List.length_pos.mpr (mem_surviving hw).1

theorem selectBest_all_empty :
    ∀ (cands : List (List Word)), (∀ ws ∈ cands, ws = []) →
      selectBest cands = ([], 0) := by
  intro cands
  induction cands with
  | nil => intro _; rfl
  | cons c cs ih =>
    intro h
    have hc := h c (List.mem_cons_self c cs)
    have h1 : selectBest (c :: cs) = selectBest cs := by
      subst hc
      rfl
    rw [h1]
    exact ih fun ws hws => h ws (List.mem_cons_of_mem c hws)

/-- C9: when every OCR configuration yields zero surviving tokens, the
extraction returns the empty sequence (the initial `best_words = []` is
never replaced); as a total Lean function it cannot raise. -/
theorem c9_all_empty_yields_empty (thr : ℤ) (results : List (List RawItem))
    (h : ∀ r ∈ results, surviving thr r = []) :
    extract_text_with_word_level_data thr results = [] := by
  unfold extract_text_with_word_level_data
  have hall : ∀ ws ∈ results.map (surviving thr), ws = [] := by
    intro ws hws
    rw [List.mem_map] at hws
    obtain ⟨r, hr, hrw⟩ := hws
    rw [← hrw]
    exact h r hr
  rw [selectBest_all_empty _ hall]

theorem c9_all_empty_yields_empty_witness :
    (∀ r ∈ [[rawBlank]], surviving 10 r = []) ∧
      extract_text_with_word_level_data 10 [[rawBlank]] = [] :=
  ⟨by decide, c9_all_empty_yields_empty 10 [[rawBlank]] (by decide)⟩

theorem mem_surviving_conf_nonneg {thr : ℤ} (hthr : 0 ≤ thr)
    {items : List RawItem} {w : Word} (hw : w ∈ surviving thr items) :
    0 ≤ w.confidence :=
  le_trans hthr (mem_surviving hw).2

theorem score_pos {ws : List Word} (hne : ws ≠ [])
    (hconf : ∀ w ∈ ws, 0 ≤ w.confidence) :
    0 < calculate_extraction_score ws := by
  unfold calculate_extraction_score
  rw [if_neg hne]
  have hn : (1 : ℚ) ≤ (ws.length : ℚ) := by
    have h0 : 1 ≤ ws.length := List.length_pos.mpr hne
    exact_mod_cast h0
  have htc : (0 : ℚ) ≤ (((ws.map (·.confidence)).sum : ℤ) : ℚ) := by
    have : (0 : ℤ) ≤ (ws.map (·.confidence)).sum := by
      apply List.sum_nonneg
      intro x hx
      rw [List.mem_map] at hx
      obtain ⟨w, hw, hwx⟩ := hx
      rw [← hwx]
      exact hconf w hw
    exact_mod_cast this
  have havg : (0 : ℚ) ≤ (((ws.map (·.confidence)).sum : ℤ) : ℚ) / (ws.length : ℚ) :=
    div_nonneg htc (by linarith)
  have hlen : (0 : ℚ) ≤ (((ws.map (fun w => w.text.length)).sum : ℕ) : ℚ) := by
    exact_mod_cast Nat.zero_le _
  have h1 : (0 : ℚ) ≤ (((ws.map (·.confidence)).sum : ℤ) : ℚ) / (ws.length : ℚ) * 0.3 := by
    linarith
  have h2 : (0 : ℚ) ≤ (((ws.map (fun w => w.text.length)).sum : ℕ) : ℚ) * 0.3 := by
    linarith
  have h3 : (0.4 : ℚ) ≤ (ws.length : ℚ) * 0.4 := by linarith
  linarith

theorem surviving_rawA : surviving 10 [rawA] = [wA] := by decide

theorem score_wA_pos : 0 < calculate_extraction_score [wA] :=
  score_pos (by simp) (fun w hw => by
    rw [List.mem_singleton.mp hw]
    decide)

theorem extract_rawA : extract_text_with_word_level_data 10 [[rawA]] = [wA] := by
  unfold extract_text_with_word_level_data selectBest
  rw [List.map_cons, List.map_nil, surviving_rawA, List.foldl_cons, List.foldl_nil]
  unfold stepBest
  rw [if_pos (by simp : ([wA] : List Word) ≠ [])]
  rw [if_pos score_wA_pos]

/-- C2 (counterexample): the claim says no returned token has cleaned text
of trimmed length below 2, but extraction run on a single-letter item keeps
it — the returned sequence holds exactly one token of trimmed length 1. -/
theorem c2_counterexample :
    (extract_text_with_word_level_data 10 [[rawA]]).map
      (fun w => (strip w.text).length) = [1] := by
  rw [extract_rawA]
  decide

theorem c2_tokens_nonblank_witness :
    wA ∈ extract_text_with_word_level_data 10 [[rawA]] ∧
      1 ≤ (strip wA.text).length :=
  ⟨by rw [extract_rawA]; exact List.mem_singleton.mpr rfl,
    c2_tokens_nonblank 10 [[rawA]] wA
      (by rw [extract_rawA]; exact List.mem_singleton.mpr rfl)⟩

theorem foldl_stepBest_ne_nil :
    ∀ (cands : List (List Word)) (acc : List Word × ℚ),
      (acc.1 ≠ [] ∨ (acc.2 ≤ 0 ∧
        ∃ ws ∈ cands, ws ≠ [] ∧ 0 < calculate_extraction_score ws)) →
      (cands.foldl stepBest acc).1 ≠ [] := by
  intro cands
  induction cands with
  | nil =>
    intro acc h
    rcases h with h | ⟨_, ws, hmem, _⟩
    · exact h
    · cases hmem
  | cons c cs ih =>
    intro acc h
    rw [List.foldl_cons]
    rcases h with h | ⟨hle, ws, hmem, hws⟩
    · rcases stepBest_cases acc c with h2 | h2
      · exact ih _ (Or.inl (by rw [h2]; exact h))
      · exact ih _ (Or.inl (by rw [h2.1]; exact h2.2))
    · rcases List.mem_cons.mp hmem with he | he
      · subst he
        refine ih _ (Or.inl ?_)
        unfold stepBest
        rw [if_pos hws.1, if_pos (lt_of_le_of_lt hle hws.2)]
        exact hws.1
      · rcases stepBest_cases acc c with h2 | h2
        · exact ih _ (by rw [h2]; exact Or.inr ⟨hle, ws, he, hws⟩)
        · exact ih _ (Or.inl (by rw [h2.1]; exact h2.2))

/-- C10: when at least one configuration has a surviving token, extraction
returns a non-empty sequence: a non-empty token set with non-negative
confidences (guaranteed by a non-negative threshold, the engine default
being 10) scores strictly above the initial best score 0, so it replaces
the empty baseline, and later steps only ever install non-empty lists. -/
theorem c10_some_tokens_yields_nonempty (thr : ℤ) (results : List (List RawItem))
    (hthr : 0 ≤ thr) (h : ∃ r ∈ results, surviving thr r ≠ []) :
    extract_text_with_word_level_data thr results ≠ [] := by
  obtain ⟨r, hr, hne⟩ := h
  unfold extract_text_with_word_level_data selectBest
  apply foldl_stepBest_ne_nil
  refine Or.inr ⟨le_refl 0, surviving thr r, List.mem_map_of_mem _ hr, hne, ?_⟩
  exact score_pos hne (fun w hw => mem_surviving_conf_nonneg hthr hw)

theorem c10_some_tokens_yields_nonempty_witness :
    (0 : ℤ) ≤ 10 ∧ (∃ r ∈ [[rawA]], surviving 10 r ≠ []) ∧
      extract_text_with_word_level_data 10 [[rawA]] ≠ [] :=
  ⟨by decide, ⟨[rawA], by decide, by decide⟩,
    c10_some_tokens_yields_nonempty 10 [[rawA]] (by decide)
      ⟨[rawA], by decide, by decide⟩⟩

theorem merge_singleton (t : Word) (h : strip t.text ≠ []) :
    merge_word_group [t] =
      some { text := t.text, left := t.left, top := t.top,
             width := t.right - t.left, height := t.top + t.height - t.top,
             confidence := ((t.confidence : ℤ) : ℚ) / (((1 : ℕ) : ℕ) : ℚ) } := by
  unfold merge_word_group
  have hf : (([t].map (·.text)).filter (fun s => strip s ≠ [])) = [t.text] := by
    simp [h]
  simp only [List.map_cons, List.map_nil] at hf ⊢
  rw [hf]
  rw [show joinSpace [t.text] = t.text from rfl]
  rw [if_neg h]
  rw [Option.some.injEq, Run.mk.injEq]
  refine ⟨rfl, rfl, rfl, rfl, rfl, ?_, rfl⟩
  norm_num

/-- C7: merging never emits a blank TextRun (a group whose member texts are
all blank merges to `none`, never to an empty-text run), and merging a
single non-blank token produces exactly one TextRun carrying that token's
text unchanged.  The non-blank side condition is the spec's Token data-model
invariant (token text normalized and non-empty), which extraction
establishes for every token it emits. -/
theorem c7_merge_nonblank_and_singleton :
    (∀ (g : List Word) (r : Run), merge_word_group g = some r → strip r.text ≠ []) ∧
    (∀ g : List Word, g ≠ [] → (∀ w ∈ g, strip w.text = []) →
       merge_word_group g = none) ∧
    (∀ t : Word, strip t.text ≠ [] →
       ∃ r : Run, merge_word_group [t] = some r ∧ r.text = t.text) := by
  refine ⟨?_, ?_, ?_⟩
  · intro g r hr
    match g with
    | [] => cases hr
    | w :: ws =>
      simp only [merge_word_group] at hr
      split at hr
      · cases hr
      · next hne =>
        rw [Option.some.injEq] at hr
        subst hr
        exact hne
  · intro g hg hblank
    match g with
    | [] => exact absurd rfl hg
    | w :: ws =>
      simp only [merge_word_group]
      have hf : (((w :: ws).map (·.text)).filter (fun s => strip s ≠ [])) = [] := by
        rw [List.filter_eq_nil_iff]
        intro s hs
        rw [List.mem_map] at hs
        obtain ⟨x, hx, hxs⟩ := hs
        simp [← hxs, hblank x hx]
      rw [hf]
      rw [show joinSpace [] = [] from rfl]
      rw [if_pos (by rfl)]
  · intro t h
    exact ⟨_, merge_singleton t h, rfl⟩

theorem c7_merge_nonblank_and_singleton_witness :
    strip tokC3.text ≠ [] ∧
      (∃ r : Run, merge_word_group [tokC3] = some r ∧ r.text = tokC3.text) :=
  ⟨by decide, c7_merge_nonblank_and_singleton.2.2 tokC3 (by decide)⟩

/-- C3 (counterexample): the union bounding box of a one-token group is the
token's own box, so it does not *strictly* contain the member box — the
claim's strict-containment reading fails. -/
theorem c3_counterexample :
    merge_word_group [tokC3] = some runC3 ∧ ¬ boxStrictContains runC3 tokC3 := by
  constructor
  · rw [merge_singleton tokC3 (by decide)]
    rw [Option.some.injEq]
    unfold runC3 tokC3
    rw [Run.mk.injEq]
    refine ⟨rfl, rfl, rfl, by decide, by decide, by norm_num, rfl⟩
  · decide

/-- C3 (amended): the TextRun produced by merging a non-empty token group
has a bounding box containing (not necessarily strictly) every member
token's box, and its merged text is non-blank.  The `right` hypothesis is
the invariant `right = left + width` that extraction establishes at token
creation (engine line 108). -/
theorem c3_box_contains_members (g : List Word) (r : Run)
    (hright : ∀ w ∈ g, w.right = w.left + w.width)
    (hr : merge_word_group g = some r) :
    (∀ w ∈ g, boxContains r w) ∧ strip r.text ≠ [] := by
  match g with
  | [] => cases hr
  | w :: ws =>
    simp only [merge_word_group] at hr
    split at hr
    · cases hr
    · next hne =>
      rw [Option.some.injEq] at hr
      subst hr
      refine ⟨?_, hne⟩
      intro x hx
      have hxr : x.right ≤ (ws.map (·.right)).foldl max w.right := by
        rcases List.mem_cons.mp hx with h1 | h1
        · rw [h1]
          exact le_foldl_max_init (ws.map (·.right)) w.right
        · exact le_foldl_max_mem (List.mem_map_of_mem (·.right) h1) w.right
      have hxb : x.top + x.height ≤
          (ws.map (fun y => y.top + y.height)).foldl max (w.top + w.height) := by
        rcases List.mem_cons.mp hx with h1 | h1
        · rw [h1]
          exact le_foldl_max_init (ws.map (fun y => y.top + y.height)) (w.top + w.height)
        · exact le_foldl_max_mem (List.mem_map_of_mem (fun y => y.top + y.height) h1)
            (w.top + w.height)
      have hxl : (ws.map (·.left)).foldl min w.left ≤ x.left := by
        rcases List.mem_cons.mp hx with h1 | h1
        · rw [h1]
          exact foldl_min_le_init (ws.map (·.left)) w.left
        · exact foldl_min_le_mem (List.mem_map_of_mem (·.left) h1) w.left
      have hxt : (ws.map (·.top)).foldl min w.top ≤ x.top := by
        rcases List.mem_cons.mp hx with h1 | h1
        · rw [h1]
          exact foldl_min_le_init (ws.map (·.top)) w.top
        · exact foldl_min_le_mem (List.mem_map_of_mem (·.top) h1) w.top
      unfold boxContains
      dsimp only
      have hrx := hright x hx
      refine ⟨hxl, hxt, by linarith, by linarith⟩

theorem c3_box_contains_members_merge :
    merge_word_group [tokP, tokQ] = some runPQ := by
  simp only [merge_word_group]
  rw [if_neg (by decide)]
  rw [Option.some.injEq]
  unfold runPQ
  rw [Run.mk.injEq]
  refine ⟨by decide, by decide, by decide, by decide, by decide, ?_, rfl⟩
  norm_num [tokP, tokQ]

theorem c3_box_contains_members_witness :
    (∀ w ∈ [tokP, tokQ], w.right = w.left + w.width) ∧
      ((∀ w ∈ [tokP, tokQ], boxContains runPQ w) ∧ strip runPQ.text ≠ []) :=
  ⟨by decide, c3_box_contains_members [tokP, tokQ] runPQ (by decide)
    c3_box_contains_members_merge⟩

theorem stepBest_eq (acc : List Word × ℚ) (ws : List Word) :
    stepBest acc ws =
      if ws ≠ [] ∧ acc.2 < calculate_extraction_score ws
      then (ws, calculate_extraction_score ws) else acc := by
  unfold stepBest
  by_cases hne : ws = []
  · simp [hne]
  · rw [if_pos hne]
    dsimp only
    by_cases hlt : acc.2 < calculate_extraction_score ws
    · rw [if_pos hlt, if_pos ⟨hne, hlt⟩]
    · rw [if_neg hlt, if_neg (fun hc => hlt hc.2)]

/-- C4: the extraction score is exactly the spec's
`0.4·count + 0.3·mean(confidence) + 0.3·sum(len(text))`, and appending one
more candidate to the selection fold replaces the running best iff the
candidate is non-empty and scores *strictly* higher — an equal score keeps
the earlier (first-seen) configuration.  Both functions are pure, so the
selection is deterministic for identical inputs and thresholds. -/
theorem c4_score_and_selection :
    (∀ ws : List Word, ws ≠ [] → calculate_extraction_score ws = specScore ws) ∧
    (∀ (cands : List (List Word)) (ws : List Word),
       selectBest (cands ++ [ws]) =
         if ws ≠ [] ∧ (selectBest cands).2 < calculate_extraction_score ws
         then (ws, calculate_extraction_score ws) else selectBest cands) := by
  constructor
  · intro ws hne
    unfold calculate_extraction_score specScore
    rw [if_neg hne]
    dsimp only
    ring
  · intro cands ws
    unfold selectBest
    rw [List.foldl_append, List.foldl_cons, List.foldl_nil]
    exact stepBest_eq (List.foldl stepBest ([], 0) cands) ws

theorem c4_score_and_selection_witness :
    ([wA] : List Word) ≠ [] ∧ calculate_extraction_score [wA] = specScore [wA] :=
  ⟨by simp, c4_score_and_selection.1 [wA] (by simp)⟩

theorem sortTopLeft_sorted (ws : List Word) :
    (sortTopLeft ws).Pairwise (fun a b => a.top ≤ b.top) := by
  unfold sortTopLeft
  refine List.Pairwise.imp ?_ (List.sorted_mergeSort ?_ ?_ ws)
  · intro a b hab
    simp only [decide_eq_true_eq] at hab
    rcases hab with h | h
    · exact le_of_lt h
    · exact le_of_eq h.1
  · intro a b c hab hbc
    simp only [decide_eq_true_eq] at hab hbc ⊢
    rcases hab with h1 | h1 <;> rcases hbc with h2 | h2
    · exact Or.inl (lt_trans h1 h2)
    · exact Or.inl (lt_of_lt_of_le h1 (le_of_eq h2.1))
    · exact Or.inl (lt_of_le_of_lt (le_of_eq h1.1) h2)
    · exact Or.inr ⟨h1.1.trans h2.1, le_trans h1.2 h2.2⟩
  · intro a b
    simp only [Bool.or_eq_true, decide_eq_true_eq]
    omega

theorem headI_append {α : Type} [Inhabited α] {l1 : List α} (l2 : List α)
    (h : l1 ≠ []) : (l1 ++ l2).headI = l1.headI := by
  cases l1 with
  | nil => exact absurd rfl h
  | cons a l => rfl

theorem clusterAux_ne_nil (θ : ℤ) :
    ∀ (rest : List Word) (ref : ℤ) (cur : List Word),
      clusterAux θ ref cur rest ≠ [] := by
  intro rest
  induction rest with
  | nil => intro ref cur; simp [clusterAux]
  | cons w ws ih =>
    intro ref cur
    rw [clusterAux]
    split
    · exact ih ref (cur ++ [w])
    · simp

theorem clusterAux_spec (θ : ℤ) (hθ : 0 ≤ θ) :
    ∀ (rest : List Word) (ref : ℤ) (cur : List Word),
      cur ≠ [] → (cur.headI).top = ref →
      (∀ w ∈ cur, |w.top - ref| ≤ θ) →
      (∀ w ∈ rest, ref ≤ w.top) →
      rest.Pairwise (fun a b => a.top ≤ b.top) →
      (∀ r ∈ clusterAux θ ref cur rest,
         r ≠ [] ∧ ∀ w ∈ r, |w.top - (r.headI).top| ≤ θ) ∧
      ((clusterAux θ ref cur rest).headI.headI.top = ref) ∧
      (clusterAux θ ref cur rest).Chain' (fun r1 r2 =>
        (r1.headI).top ≤ (r2.headI).top ∧ θ < |(r2.headI).top - (r1.headI).top|) := by
  intro rest
  induction rest with
  | nil =>
    intro ref cur hne hhead hcur _ _
    refine ⟨?_, hhead, ?_⟩
    · intro r hr
      rw [List.mem_singleton.mp hr]
      refine ⟨hne, ?_⟩
      intro w hw
      rw [hhead]
      exact hcur w hw
    · exact List.chain'_singleton cur
  | cons w ws ih =>
    intro ref cur hne hhead hcur hrest hp
    rw [clusterAux]
    by_cases hjoin : |w.top - ref| ≤ θ
    · rw [if_pos hjoin]
      refine ih ref (cur ++ [w]) (by simp) ?_ ?_ ?_ ?_
      · rw [headI_append [w] hne]
        exact hhead
      · intro v hv
        rcases List.mem_append.mp hv with h1 | h1
        · exact hcur v h1
        · rw [List.mem_singleton.mp h1]
          exact hjoin
      · intro v hv
        exact hrest v (List.mem_cons_of_mem w hv)
      · exact (List.pairwise_cons.mp hp).2
    · rw [if_neg hjoin]
      have hpc := List.pairwise_cons.mp hp
      have hI := ih w.top [w] (by simp) rfl
        (by
          intro v hv
          rw [List.mem_singleton.mp hv]
          simpa using hθ)
        hpc.1 hpc.2
      refine ⟨?_, ?_, ?_⟩
      · intro r hr
        rcases List.mem_cons.mp hr with h1 | h1
        · rw [h1]
          refine ⟨hne, ?_⟩
          intro v hv
          rw [hhead]
          exact hcur v hv
        · exact hI.1 r h1
      · rw [show (cur :: clusterAux θ w.top [w] ws).headI = cur from rfl, hhead]
      · rw [List.chain'_cons']
        refine ⟨?_, hI.2.2⟩
        intro b hb
        have hbh : b = (clusterAux θ w.top [w] ws).headI := by
          rcases he : clusterAux θ w.top [w] ws with _ | ⟨x, xs⟩
          · exact absurd he (clusterAux_ne_nil θ ws w.top [w])
          · rw [he] at hb
            simp only [List.head?_cons, Option.mem_def, Option.some.injEq] at hb
            rw [← hb]
            rfl
        rw [hbh, hI.2.1, hhead]
        constructor
        · exact hrest w (List.mem_cons_self w ws)
        · exact lt_of_not_le hjoin

/-- C5: on a top-sorted word sequence (the engine sorts by `(top, left)`
first), every clustered row keeps as reference the top of its first member,
every member lies within the row-height threshold of that fixed reference,
consecutive rows open only when a word exceeds the threshold from the
previous reference, and row references are non-decreasing (indeed the gap
between consecutive references strictly exceeds the threshold). -/
theorem c5_row_clustering (θ : ℤ) (words : List Word) (hθ : 0 ≤ θ)
    (hs : words.Pairwise (fun a b => a.top ≤ b.top)) :
    (∀ r ∈ clusterRows θ words, r ≠ [] ∧ ∀ w ∈ r, |w.top - (r.headI).top| ≤ θ) ∧
    (clusterRows θ words).Chain' (fun r1 r2 =>
      (r1.headI).top ≤ (r2.headI).top ∧ θ < |(r2.headI).top - (r1.headI).top|) := by
  match words with
  | [] =>
    exact ⟨fun r hr => (nomatch hr), List.chain'_nil⟩
  | w :: ws =>
    have hp := List.pairwise_cons.mp hs
    have h := clusterAux_spec θ hθ ws w.top [w] (by simp) rfl
      (by
        intro v hv
        rw [List.mem_singleton.mp hv]
        simpa using hθ)
      hp.1 hp.2
    exact ⟨h.1, h.2.2⟩

theorem c5_row_clustering_witness :
    ((0 : ℤ) ≤ 25 ∧ ([tokP, tokQ, tokR] : List Word).Pairwise
        (fun a b => a.top ≤ b.top)) ∧
      ((∀ r ∈ clusterRows 25 [tokP, tokQ, tokR],
          r ≠ [] ∧ ∀ w ∈ r, |w.top - (r.headI).top| ≤ 25) ∧
        (clusterRows 25 [tokP, tokQ, tokR]).Chain' (fun r1 r2 =>
          (r1.headI).top ≤ (r2.headI).top ∧ 25 < |(r2.headI).top - (r1.headI).top|)) :=
  ⟨⟨by decide, by decide⟩,
    c5_row_clustering 25 [tokP, tokQ, tokR] (by decide) (by decide)⟩

theorem specCols_congr (θ : ℤ) (c : ℕ) (p1 p2 : Run) (hl : p1.left = p2.left)
    (hw : p1.width = p2.width) : ∀ l, specCols θ c p1 l = specCols θ c p2 l
  | [] => rfl
  | y :: ys => by simp only [specCols, hl, hw]

theorem colAux_eq_specCols (θ : ℤ) :
    ∀ (gs : List Run) (g : Run) (cur : ℕ),
      (∀ x ∈ gs, x.column_break = false) →
      colAux cur (markAux θ g gs) = specCols θ cur g gs := by
  intro gs
  induction gs with
  | nil => intro g cur _; rfl
  | cons x xs ih =>
    intro g cur hflags
    rw [markAux, colAux, specCols]
    by_cases hgap : θ ≤ x.left - (g.left + g.width)
    · rw [if_pos hgap, if_pos hgap]
      rw [if_pos rfl]
      rw [ih { x with column_break := true } (cur + 1)
        (fun y hy => hflags y (List.mem_cons_of_mem x hy))]
      rw [specCols_congr θ (cur + 1) { x with column_break := true } x rfl rfl xs]
    · rw [if_neg hgap, if_neg hgap]
      rw [hflags x (List.mem_cons_self x xs)]
      rw [if_neg (by simp)]
      rw [ih x cur (fun y hy => hflags y (List.mem_cons_of_mem x hy))]

theorem specCols_ge (θ : ℤ) :
    ∀ (l : List Run) (c : ℕ) (p : Run), ∀ q ∈ specCols θ c p l, c ≤ q := by
  intro l
  induction l with
  | nil => intro c p q hq; cases hq
  | cons y ys ih =>
    intro c p q hq
    rw [specCols] at hq
    rcases List.mem_cons.mp hq with h1 | h1
    · subst h1
      split <;> omega
    · have := ih _ y q h1
      split at this <;> omega

theorem specCols_chain (θ : ℤ) :
    ∀ (l : List Run) (c : ℕ) (p : Run),
      (c :: specCols θ c p l).Chain' (· ≤ ·) := by
  intro l
  induction l with
  | nil => intro c p; exact List.chain'_singleton c
  | cons y ys ih =>
    intro c p
    rw [specCols]
    rw [List.chain'_cons]
    constructor
    · split <;> omega
    · exact ih _ y

/-- C6: for every row of runs fresh from merging (no break flag set yet),
the code's pipeline — flag marking by `detect_column_breaks` followed by
`calculate_smart_columns`'s counter — assigns exactly the spec's column
indices: the first run gets 1, a later run gets the previous index plus one
iff its gap `run.left − (prev.left + prev.width)` reaches the threshold,
else the same index; consequently indices start at 1 and are non-decreasing
left to right. -/
theorem c6_column_indices (θ : ℤ) (row : List Run)
    (hflags : ∀ g ∈ row, g.column_break = false) :
    calculate_smart_columns (detect_column_breaks_row θ row) = specColumns θ row ∧
    (specColumns θ row).Chain' (· ≤ ·) ∧
    ∀ p ∈ specColumns θ row, 1 ≤ p := by
  refine ⟨?_, ?_, ?_⟩
  · match row with
    | [] => rfl
    | [g] => rfl
    | g :: x :: xs =>
      rw [detect_column_breaks_row, if_neg (by simp)]
      rw [show calculate_smart_columns (g :: markAux θ g (x :: xs)) =
        1 :: colAux 1 (markAux θ g (x :: xs)) from rfl]
      rw [colAux_eq_specCols θ (x :: xs) g 1
        (fun y hy => hflags y (List.mem_cons_of_mem g hy))]
      rfl
  · match row with
    | [] => exact List.chain'_nil
    | g :: gs => exact specCols_chain θ gs 1 g
  · match row with
    | [] => intro p hp; cases hp
    | g :: gs =>
      intro p hp
      rcases List.mem_cons.mp hp with h1 | h1
      · omega
      · exact specCols_ge θ gs 1 g p h1

theorem c6_column_indices_witness :
    (∀ g ∈ [runPQ, runC3], g.column_break = false) ∧
      (calculate_smart_columns (detect_column_breaks_row 80 [runPQ, runC3]) =
          specColumns 80 [runPQ, runC3] ∧
        (specColumns 80 [runPQ, runC3]).Chain' (· ≤ ·) ∧
        ∀ p ∈ specColumns 80 [runPQ, runC3], 1 ≤ p) :=
  ⟨by decide, c6_column_indices 80 [runPQ, runC3] (by decide)⟩

/-- C8: whenever `adjust_column_widths_smart` sets a width for a column (the
column has at least one non-empty cell), the width is
`min(max(maxLen + 3, 15), 80)` for `maxLen` the maximum cell-text length in
the column, and hence always lies in `[15, 80]`. -/
theorem c8_column_width_clamped (grid : List (List (Option (List Char))))
    (c : ℕ) (w : ℕ) (hw : adjust_column_widths_smart grid c = some w) :
    (∃ M ∈ colContentLens grid c,
       (∀ x ∈ colContentLens grid c, x ≤ M) ∧ w = min (max (M + 3) 15) 80) ∧
    15 ≤ w ∧ w ≤ 80 := by
  unfold adjust_column_widths_smart at hw
  rcases he : colContentLens grid c with _ | ⟨l, ls⟩
  · rw [he] at hw
    cases hw
  · rw [he] at hw
    rw [Option.some.injEq] at hw
    subst hw
    refine ⟨⟨ls.foldl max l, ?_, ?_, rfl⟩, by omega, by omega⟩
    · rcases foldl_max_mem ls l with h1 | h1
      · rw [h1]
        exact List.mem_cons_self l ls
      · exact List.mem_cons_of_mem l h1
    · intro x hx
      rcases List.mem_cons.mp hx with h1 | h1
      · rw [h1]
        exact le_foldl_max_init ls l
      · exact le_foldl_max_mem h1 l

theorem c8_column_width_clamped_witness :
    adjust_column_widths_smart [[some ['A', 'B'], none], [some ['C'], some []]] 0 =
        some 15 ∧
      ((∃ M ∈ colContentLens [[some ['A', 'B'], none], [some ['C'], some []]] 0,
          (∀ x ∈ colContentLens [[some ['A', 'B'], none], [some ['C'], some []]] 0,
            x ≤ M) ∧ 15 = min (max (M + 3) 15) 80) ∧
        15 ≤ 15 ∧ 15 ≤ 80) :=
  ⟨by decide, c8_column_width_clamped
    [[some ['A', 'B'], none], [some ['C'], some []]] 0 15 (by decide)⟩

end OCREngine
